import Mathlib

/-!
Verification development for the `schedule_state` scheduling engine
(`custom_components/schedule_state/sensor.py`).

The engine composes layered time ranges over one repeating day into a
partition of the day, manages temporary overrides, and answers
point-in-time queries.  We embed the interval algebra of the `portion`
library (restricted to the closed-open intervals the engine builds),
the layering algorithm `_handle_layers` / `_handle_layer`, the schedule
compilation of `process_events`, the query logic of `update` /
`find_interval`, and the override operations `set_override`,
`remove_override`, `_add_or_edit_override`, `clear_overrides` together
with the helpers `next_time`, `simple_time`, `start_of_next_day` and
`_get_intervals`.

Modelling conventions:
* a wall-clock time of day (`datetime.time`) is a number of seconds
  from midnight (a `Nat`); `time.min` is `START_OF_DAY = 0` and the
  sentinel `time.max = 23:59:59.999999` is `END_OF_DAY = 86400`
  (every constructible bound below it is a whole second, so the order
  embedding is faithful);
* an absolute timestamp (`datetime.datetime`) is a number of seconds
  from an epoch (an `Int`), day `n` spanning `[86400*n, 86400*(n+1))`;
* a `portion` interval is its canonical list of atomic closed-open
  intervals; the operations below mirror union (`|`), intersection
  (`&`), difference (`-`) and `overlaps` on such lists.
-/

/-- `datetime.time.min`, i.e. midnight, the lower bound of the day. -/
def START_OF_DAY : Nat := 0

/-- `datetime.time.max`, the sentinel upper bound of the day. -/
def END_OF_DAY : Nat := 86400

/-- One atomic closed-open interval `[lower, upper)` over times of day,
as built by `P.closedopen`. -/
structure Ivl where
  lower : Nat
  upper : Nat
deriving DecidableEq, Repr

/-- Membership of an instant in one atomic interval (`t in i`). -/
def memI (t : Nat) (i : Ivl) : Bool :=
  decide (i.lower ≤ t) && decide (t < i.upper)

/-- Membership of an instant in a multi-interval set (`t in s`). -/
def memS (t : Nat) (s : List Ivl) : Bool :=
  s.any (memI t)

/-- Intersection of two atomic intervals (empty when they are disjoint). -/
def Ivl.inter (i j : Ivl) : Ivl :=
  ⟨max i.lower j.lower, min i.upper j.upper⟩

/-- Intersection of a multi-interval set with one atomic interval
(`s & j` in `portion`): clip every atom and drop the empty results. -/
def interSet (s : List Ivl) (j : Ivl) : List Ivl :=
  (s.map (fun i => Ivl.inter i j)).filter (fun k => decide (k.lower < k.upper))

/-- Difference of two atomic intervals, `i - j`, as at most two atoms. -/
def diffAtom (i j : Ivl) : List Ivl :=
  ([⟨i.lower, min i.upper j.lower⟩, ⟨max i.lower j.upper, i.upper⟩] : List Ivl).filter
    (fun k => decide (k.lower < k.upper))

/-- Difference of a multi-interval set and one atomic interval. -/
def diffOne (s : List Ivl) (j : Ivl) : List Ivl :=
  s.flatMap (fun i => diffAtom i j)

/-- Difference of two multi-interval sets (`s - q` in `portion`). -/
def diffSet (s q : List Ivl) : List Ivl :=
  q.foldl diffOne s

/-- Insert one nonempty atomic interval into a canonical atom list,
merging it with every atom it overlaps or touches (the normalization
`portion` applies on union). -/
def insIvl (j : Ivl) : List Ivl → List Ivl
  | [] => [j]
  | i :: r =>
    if j.upper < i.lower then j :: i :: r
    else if i.upper < j.lower then i :: insIvl j r
    else insIvl ⟨min i.lower j.lower, max i.upper j.upper⟩ r

/-- Union of a multi-interval set with one atomic interval
(`s | j` in `portion`); an empty atom is the identity. -/
def unionS (s : List Ivl) (j : Ivl) : List Ivl :=
  if j.lower < j.upper then insIvl j s else s

/-- The multi-interval set of one atomic interval (empty atoms vanish,
as they do in `portion`). -/
def toIvlSet (j : Ivl) : List Ivl :=
  if j.lower < j.upper then [j] else []

/-- `j.overlaps s`: the intersection is nonempty. -/
def overlapsB (j : Ivl) (s : List Ivl) : Bool :=
  !(interSet s j).isEmpty

/-- Well-formedness of an atom list: no atom has `upper < lower`.
Every list the engine builds satisfies this. -/
def WFs (s : List Ivl) : Prop :=
  ∀ i ∈ s, i.lower ≤ i.upper

theorem bool_eq_of_iff {a b : Bool} (h : (a = true) ↔ (b = true)) : a = b := by
  cases a <;> cases b <;> simp_all

theorem memI_true_iff {t : Nat} {i : Ivl} :
    memI t i = true ↔ i.lower ≤ t ∧ t < i.upper := by
  simp [memI]

theorem memS_true_iff {t : Nat} {s : List Ivl} :
    memS t s = true ↔ ∃ i ∈ s, memI t i = true := by
  simp [memS]

theorem memS_nil {t : Nat} : memS t [] = false := rfl

theorem memS_cons {t : Nat} {i : Ivl} {s : List Ivl} :
    memS t (i :: s) = (memI t i || memS t s) := by
  simp [memS]

theorem memS_append {t : Nat} {s q : List Ivl} :
    memS t (s ++ q) = (memS t s || memS t q) := by
  simp [memS]

theorem memI_empty {t : Nat} {j : Ivl} (h : ¬ j.lower < j.upper) :
    memI t j = false := by
  apply Bool.eq_false_iff.mpr
  intro hc
  rw [memI_true_iff] at hc
  omega

theorem memS_filter_pos {t : Nat} {s : List Ivl} :
    memS t (s.filter (fun k => decide (k.lower < k.upper))) = memS t s := by
  induction s with
  | nil => rfl
  | cons i r ih =>
    by_cases h : i.lower < i.upper
    · simp [List.filter_cons, h, memS_cons, ih]
    · simp [List.filter_cons, h, memS_cons, ih, memI_empty h]

theorem memI_inter {t : Nat} {i j : Ivl} :
    memI t (Ivl.inter i j) = (memI t i && memI t j) := by
  apply bool_eq_of_iff
  simp only [memI, Ivl.inter, Bool.and_eq_true, decide_eq_true_eq]
  omega

theorem memS_interSet {t : Nat} {s : List Ivl} {j : Ivl} :
    memS t (interSet s j) = (memS t s && memI t j) := by
  rw [interSet, memS_filter_pos]
  induction s with
  | nil => simp [memS]
  | cons i r ih =>
    simp only [List.map_cons, memS_cons, ih, memI_inter]
    cases memI t i <;> cases memI t j <;> cases memS t r <;> rfl

theorem memS_diffAtom {t : Nat} {i j : Ivl} :
    memS t (diffAtom i j) = (memI t i && !memI t j) := by
  rw [diffAtom, memS_filter_pos]
  apply bool_eq_of_iff
  simp only [memS, List.any_cons, List.any_nil, Bool.or_false, Bool.or_eq_true,
    Bool.and_eq_true, Bool.not_eq_true', memI, Bool.and_eq_false_iff,
    decide_eq_true_eq, decide_eq_false_iff_not]
  omega

theorem memS_diffOne {t : Nat} {s : List Ivl} {j : Ivl} :
    memS t (diffOne s j) = (memS t s && !memI t j) := by
  induction s with
  | nil => rfl
  | cons i r ih =>
    simp only [diffOne, List.flatMap_cons] at *
    rw [memS_append, memS_diffAtom, ih, memS_cons]
    cases memI t i <;> cases memI t j <;> cases memS t r <;> rfl

theorem memS_diffSet {t : Nat} {s q : List Ivl} :
    memS t (diffSet s q) = (memS t s && !memS t q) := by
  induction q generalizing s with
  | nil => simp [diffSet, memS]
  | cons j q ih =>
    show memS t (diffSet (diffOne s j) q) = _
    rw [ih, memS_diffOne, memS_cons]
    cases memI t j <;> cases memS t s <;> cases memS t q <;> rfl

theorem memS_insIvl {t : Nat} {j : Ivl} {s : List Ivl}
    (hj : j.lower < j.upper) (hs : WFs s) :
    memS t (insIvl j s) = (memS t s || memI t j) := by
  induction s generalizing j with
  | nil => simp [insIvl, memS_cons, memS_nil]
  | cons i r ih =>
    have hi : i.lower ≤ i.upper := hs i (by simp)
    have hr : WFs r := fun k hk => hs k (by simp [hk])
    by_cases h1 : j.upper < i.lower
    · simp only [insIvl, if_pos h1]
      rw [memS_cons, memS_cons]
      cases memI t j <;> cases memI t i <;> cases memS t r <;> rfl
    · by_cases h2 : i.upper < j.lower
      · simp only [insIvl, if_neg h1, if_pos h2]
        rw [memS_cons, memS_cons, ih hj hr]
        cases memI t j <;> cases memI t i <;> cases memS t r <;> rfl
      · simp only [insIvl, if_neg h1, if_neg h2]
        have hm : (⟨min i.lower j.lower, max i.upper j.upper⟩ : Ivl).lower <
            (⟨min i.lower j.lower, max i.upper j.upper⟩ : Ivl).upper := by
          show min i.lower j.lower < max i.upper j.upper
          omega
        rw [ih hm hr, memS_cons]
        have hh : memI t ⟨min i.lower j.lower, max i.upper j.upper⟩ =
            (memI t i || memI t j) := by
          apply bool_eq_of_iff
          simp only [memI, Bool.or_eq_true, Bool.and_eq_true, decide_eq_true_eq]
          omega
        rw [hh]
        cases memI t i <;> cases memI t j <;> cases memS t r <;> rfl

theorem memS_unionS {t : Nat} {s : List Ivl} {j : Ivl} (hs : WFs s) :
    memS t (unionS s j) = (memS t s || memI t j) := by
  unfold unionS
  by_cases h : j.lower < j.upper
  · rw [if_pos h, memS_insIvl h hs]
  · rw [if_neg h, memI_empty h, Bool.or_false]

theorem memS_toIvlSet {t : Nat} {j : Ivl} :
    memS t (toIvlSet j) = memI t j := by
  unfold toIvlSet
  by_cases h : j.lower < j.upper
  · simp [if_pos h, memS]
  · rw [if_neg h, memI_empty h]; rfl

theorem WFs_nil : WFs [] := by intro i h; cases h

theorem WFs_filter_pos {s : List Ivl} :
    WFs (s.filter (fun k => decide (k.lower < k.upper))) := by
  intro i hi
  have := (List.mem_filter.mp hi).2
  simp at this
  omega

theorem WFs_interSet {s : List Ivl} {j : Ivl} : WFs (interSet s j) :=
  WFs_filter_pos

theorem WFs_diffOne {s : List Ivl} {j : Ivl} : WFs (diffOne s j) := by
  intro i hi
  rcases List.mem_flatMap.mp hi with ⟨a, _, ha⟩
  exact WFs_filter_pos i ha

theorem WFs_diffSet {s q : List Ivl} (hs : WFs s) : WFs (diffSet s q) := by
  induction q generalizing s with
  | nil => exact hs
  | cons j q ih => exact ih (s := diffOne s j) WFs_diffOne

theorem WFs_insIvl {j : Ivl} {s : List Ivl} (hj : j.lower ≤ j.upper)
    (hs : WFs s) : WFs (insIvl j s) := by
  induction s generalizing j with
  | nil =>
    intro i hi
    simp [insIvl] at hi
    subst hi; exact hj
  | cons i r ih =>
    have hi : i.lower ≤ i.upper := hs i (by simp)
    have hr : WFs r := fun k hk => hs k (by simp [hk])
    by_cases h1 : j.upper < i.lower
    · simp only [insIvl, if_pos h1]
      intro k hk
      simp only [List.mem_cons] at hk
      rcases hk with hk | hk | hk
      · subst hk; exact hj
      · subst hk; exact hi
      · exact hr k hk
    · by_cases h2 : i.upper < j.lower
      · simp only [insIvl, if_neg h1, if_pos h2]
        intro k hk
        simp only [List.mem_cons] at hk
        rcases hk with hk | hk
        · subst hk; exact hi
        · exact ih hj hr k hk
      · simp only [insIvl, if_neg h1, if_neg h2]
        apply ih _ hr
        show min i.lower j.lower ≤ max i.upper j.upper
        omega

theorem WFs_unionS {s : List Ivl} {j : Ivl} (hs : WFs s) :
    WFs (unionS s j) := by
  unfold unionS
  by_cases h : j.lower < j.upper
  · rw [if_pos h]; exact WFs_insIvl (Nat.le_of_lt h) hs
  · rw [if_neg h]; exact hs

theorem WFs_toIvlSet {j : Ivl} : WFs (toIvlSet j) := by
  unfold toIvlSet
  by_cases h : j.lower < j.upper
  · rw [if_pos h]
    intro i hi
    simp at hi
    subst hi; omega
  · rw [if_neg h]; exact WFs_nil

/-! ### Partitions

A partition is Python's insertion-ordered `dict` mapping a label (state
or attribute value) to its multi-interval set, modelled as an
association list. -/

/-- A label-to-interval-set mapping (the `states` dict). -/
abbrev Partition := List (String × List Ivl)

/-- First value stored under a key, as Python dict lookup. -/
def lookupS : Partition → String → Option (List Ivl)
  | [], _ => none
  | e :: r, k => if e.1 = k then some e.2 else lookupS r k

/-- Python dict assignment `states[k] = v`: replace the value in place
when the key exists, append the pair otherwise. -/
def setEntry : Partition → String → List Ivl → Partition
  | [], k, v => [(k, v)]
  | e :: r, k, v => if e.1 = k then (k, v) :: r else e :: setEntry r k v

/-- Interval set of a label, empty when the label is absent. -/
def getD (p : Partition) (k : String) : List Ivl :=
  (lookupS p k).getD []

/-- Well-formedness of a partition: every stored atom list is `WFs`. -/
def WFp (p : Partition) : Prop :=
  ∀ e ∈ p, WFs e.2

/-- `_handle_layer(states, attr, this_attr, interval)`: carve the new
interval out of the set stored under one *different* label.  The source
computes `overlap = interval & states[attr]` and subtracts it when
`interval.overlaps(states[attr])`. -/
def handle_layer (this_attr : String) (interval : Ivl)
    (e : String × List Ivl) : String × List Ivl :=
  if e.1 = this_attr then e
  else
    let overlap := interSet e.2 interval
    if overlapsB interval e.2 then (e.1, diffSet e.2 overlap) else e

/-- `_handle_layers(states, this_attr, interval)`: carve `interval` out
of every other label, then union it into `this_attr`'s set (creating
the entry when absent). -/
def handle_layers (states : Partition) (this_attr : String)
    (interval : Ivl) : Partition :=
  match lookupS (states.map (handle_layer this_attr interval)) this_attr with
  | none =>
    states.map (handle_layer this_attr interval) ++ [(this_attr, toIvlSet interval)]
  | some s =>
    setEntry (states.map (handle_layer this_attr interval)) this_attr
      (unionS s interval)

/-- The schedule compilation of `process_events`, restricted to the
layering it performs: seed the empty dict with a full-day default-state
layer `P.closedopen(time.min, time.max)`, then apply every resolved
(label, interval) layer in order. -/
def compileLayers (default_state : String)
    (layers : List (String × Ivl)) : Partition :=
  layers.foldl (fun st lj => handle_layers st lj.1 lj.2)
    (handle_layers [] default_state ⟨START_OF_DAY, END_OF_DAY⟩)

/-- `find_interval(states, nu)`: scan the labels in insertion order;
for the first label whose set contains `nu`, return the label and the
atomic interval containing `nu`.  The `assert False` fallthrough is
`none`. -/
def find_interval : Partition → Nat → Option (String × Ivl)
  | [], _ => none
  | e :: r, nu =>
    if memS nu e.2 then
      match e.2.find? (fun i => memI nu i) with
      | some i => some (e.1, i)
      | none => find_interval r nu
    else find_interval r nu

/-! ### Lemmas about the layering algorithm -/

theorem handle_layer_fst {l : String} {j : Ivl} {e : String × List Ivl} :
    (handle_layer l j e).1 = e.1 := by
  unfold handle_layer
  by_cases h : e.1 = l
  · rw [if_pos h]
  · rw [if_neg h]
    cases h2 : overlapsB j e.2
    · rw [if_neg Bool.false_ne_true]
    · rw [if_pos rfl]

theorem handle_layer_eq {l : String} {j : Ivl} {e : String × List Ivl}
    (h : e.1 = l) : handle_layer l j e = e := by
  unfold handle_layer
  rw [if_pos h]

theorem interSet_empty_of_not_overlaps {s : List Ivl} {j : Ivl}
    (h : overlapsB j s = false) : interSet s j = [] := by
  unfold overlapsB at h
  rcases hi : interSet s j with _ | ⟨a, r⟩
  · rfl
  · rw [hi] at h
    simp at h

theorem memS_handle_layer_ne {t : Nat} {l : String} {j : Ivl}
    {e : String × List Ivl} (h : e.1 ≠ l) :
    memS t (handle_layer l j e).2 = (memS t e.2 && !memI t j) := by
  unfold handle_layer
  rw [if_neg h]
  cases h2 : overlapsB j e.2
  · rw [if_neg Bool.false_ne_true]
    have h3 : memS t (interSet e.2 j) = false := by
      rw [interSet_empty_of_not_overlaps h2]
      rfl
    rw [memS_interSet] at h3
    cases hm : memS t e.2 <;> cases hj : memI t j <;> simp_all
  · rw [if_pos rfl]
    show memS t (diffSet e.2 (interSet e.2 j)) = _
    rw [memS_diffSet, memS_interSet]
    cases memS t e.2 <;> cases memI t j <;> rfl

theorem WFs_handle_layer {l : String} {j : Ivl} {e : String × List Ivl}
    (he : WFs e.2) : WFs (handle_layer l j e).2 := by
  unfold handle_layer
  by_cases h : e.1 = l
  · rw [if_pos h]; exact he
  · rw [if_neg h]
    cases h2 : overlapsB j e.2
    · rw [if_neg Bool.false_ne_true]; exact he
    · rw [if_pos rfl]
      exact WFs_diffSet he

theorem lookupS_map_handle_layer {p : Partition} {l : String} {j : Ivl}
    {k : String} :
    lookupS (p.map (handle_layer l j)) k =
      (lookupS p k).map (fun s => (handle_layer l j (k, s)).2) := by
  induction p with
  | nil => rfl
  | cons e r ih =>
    obtain ⟨a, b⟩ := e
    by_cases h : a = k
    · subst h
      simp only [List.map_cons, lookupS, handle_layer_fst, if_pos rfl,
        Option.map_some]
      simp
    · simp only [List.map_cons, lookupS, handle_layer_fst, if_neg h, ih]

theorem lookupS_mem {p : Partition} {k : String} {s : List Ivl}
    (h : lookupS p k = some s) : (k, s) ∈ p := by
  induction p with
  | nil => cases h
  | cons e r ih =>
    obtain ⟨a, b⟩ := e
    unfold lookupS at h
    by_cases he : a = k
    · subst he
      rw [if_pos rfl] at h
      injection h with h
      subst h
      exact List.mem_cons_self _ _
    · rw [if_neg he] at h
      exact List.mem_cons_of_mem _ (ih h)

theorem lookupS_none_iff {p : Partition} {k : String} :
    lookupS p k = none ↔ k ∉ p.map Prod.fst := by
  induction p with
  | nil => simp [lookupS]
  | cons e r ih =>
    obtain ⟨a, b⟩ := e
    unfold lookupS
    by_cases he : a = k
    · subst he
      simp
    · have hne : k ≠ a := fun hc => he hc.symm
      simp only [if_neg he, ih, List.map_cons, List.mem_cons]
      constructor
      · intro hh hc
        rcases hc with hc | hc
        · exact hne hc
        · exact hh hc
      · intro hh hc
        exact hh (Or.inr hc)

theorem lookupS_some_mem_keys {p : Partition} {k : String} {s : List Ivl}
    (h : lookupS p k = some s) : k ∈ p.map Prod.fst := by
  by_contra hc
  rw [← lookupS_none_iff] at hc
  rw [h] at hc
  cases hc

theorem lookupS_setEntry_self {m : Partition} {k : String} {v : List Ivl} :
    lookupS (setEntry m k v) k = some v := by
  induction m with
  | nil => simp [setEntry, lookupS]
  | cons e r ih =>
    obtain ⟨a, b⟩ := e
    unfold setEntry
    by_cases he : a = k
    · rw [if_pos he]
      simp [lookupS]
    · rw [if_neg he]
      unfold lookupS
      rw [if_neg he]
      exact ih

theorem lookupS_setEntry_ne {m : Partition} {k q : String} {v : List Ivl}
    (h : q ≠ k) : lookupS (setEntry m k v) q = lookupS m q := by
  induction m with
  | nil =>
    simp only [setEntry, lookupS]
    rw [if_neg (fun hc : k = q => h hc.symm)]
  | cons e r ih =>
    obtain ⟨a, b⟩ := e
    unfold setEntry
    by_cases he : a = k
    · subst he
      rw [if_pos rfl]
      show (if a = q then some v else lookupS r q) =
        if a = q then some b else lookupS r q
      rw [if_neg (fun hc : a = q => h hc.symm),
        if_neg (fun hc : a = q => h hc.symm)]
    · rw [if_neg he]
      unfold lookupS
      by_cases ha : a = q
      · rw [if_pos ha, if_pos ha]
      · rw [if_neg ha, if_neg ha]
        exact ih

theorem lookupS_append_single {m : Partition} {l k : String} {v : List Ivl} :
    lookupS (m ++ [(l, v)]) k =
      match lookupS m k with
      | some s => some s
      | none => if l = k then some v else none := by
  induction m with
  | nil => simp [lookupS]
  | cons e r ih =>
    obtain ⟨a, b⟩ := e
    by_cases he : a = k
    · simp only [List.cons_append, lookupS, if_pos he]
    · simp only [List.cons_append, lookupS, if_neg he, List.append_eq, ih]

theorem keys_setEntry {m : Partition} {k : String} {v : List Ivl}
    (h : k ∈ m.map Prod.fst) :
    (setEntry m k v).map Prod.fst = m.map Prod.fst := by
  induction m with
  | nil => simp at h
  | cons e r ih =>
    obtain ⟨a, b⟩ := e
    unfold setEntry
    by_cases he : a = k
    · subst he
      rw [if_pos rfl]
      simp
    · rw [if_neg he]
      simp only [List.map_cons] at h ⊢
      rcases List.mem_cons.mp h with hc | hc
      · exact absurd hc.symm he
      · rw [ih hc]

theorem mem_setEntry {m : Partition} {k : String} {v : List Ivl}
    {e : String × List Ivl} (h : e ∈ setEntry m k v) :
    e ∈ m ∨ e = (k, v) := by
  induction m with
  | nil =>
    simp only [setEntry] at h
    rcases List.mem_singleton.mp h with h
    exact Or.inr h
  | cons a r ih =>
    unfold setEntry at h
    by_cases ha : a.1 = k
    · rw [if_pos ha] at h
      rcases List.mem_cons.mp h with h | h
      · exact Or.inr h
      · exact Or.inl (List.mem_cons_of_mem _ h)
    · rw [if_neg ha] at h
      rcases List.mem_cons.mp h with h | h
      · exact Or.inl (by simp [h])
      · rcases ih h with h2 | h2
        · exact Or.inl (List.mem_cons_of_mem _ h2)
        · exact Or.inr h2

/-! ### Membership characterization of one layering step -/

theorem memS_getD_handle_layers {p : Partition} {l : String} {j : Ivl}
    (hp : WFp p) (t : Nat) (k : String) :
    memS t (getD (handle_layers p l j) k) =
      if k = l then (memS t (getD p k) || memI t j)
      else (memS t (getD p k) && !memI t j) := by
  unfold handle_layers
  rcases hl : lookupS (p.map (handle_layer l j)) l with _ | s
  · have hpl : lookupS p l = none := by
      rw [lookupS_map_handle_layer] at hl
      rcases hx : lookupS p l with _ | s0
      · rfl
      · rw [hx] at hl
        cases hl
    simp only [hl]
    by_cases hk : k = l
    · subst hk
      unfold getD
      rw [lookupS_append_single, hl, if_pos rfl, hpl]
      simp [memS_toIvlSet]
      simp [memS_nil]
    · unfold getD
      rw [lookupS_append_single, if_neg hk]
      rw [lookupS_map_handle_layer]
      rcases hx : lookupS p k with _ | sk
      · rw [if_neg (fun hc : l = k => hk hc.symm)]
        simp [memS_nil]
      · show memS t (handle_layer l j (k, sk)).2 = (memS t sk && !memI t j)
        exact memS_handle_layer_ne (e := (k, sk)) hk
  · simp only [hl]
    have hmap := hl
    rw [lookupS_map_handle_layer] at hmap
    rcases hx : lookupS p l with _ | s0
    · rw [hx] at hmap
      cases hmap
    · rw [hx] at hmap
      injection hmap with hmap
      have hid : handle_layer l j (l, s0) = (l, s0) := handle_layer_eq rfl
      have hs : s = s0 := by
        simp only at hmap
        rw [hid] at hmap
        exact hmap.symm
      -- the value under `l` in the mapped dict is `p`'s own, untouched
      subst hs
      have hwf : WFs s := hp (l, s) (lookupS_mem hx)
      by_cases hk : k = l
      · subst hk
        unfold getD
        rw [lookupS_setEntry_self, hx]
        simp only [Option.getD_some]
        rw [memS_unionS hwf]
        simp
      · unfold getD
        rw [lookupS_setEntry_ne hk, lookupS_map_handle_layer, if_neg hk]
        rcases hy : lookupS p k with _ | sk
        · simp [memS_nil]
        · show memS t (handle_layer l j (k, sk)).2 = (memS t sk && !memI t j)
          exact memS_handle_layer_ne (e := (k, sk)) hk

theorem WFp_map_handle_layer {p : Partition} {l : String} {j : Ivl}
    (hp : WFp p) : WFp (p.map (handle_layer l j)) := by
  intro e he
  rcases List.mem_map.mp he with ⟨e0, he0, rfl⟩
  exact WFs_handle_layer (hp e0 he0)

theorem WFp_handle_layers {p : Partition} {l : String} {j : Ivl}
    (hp : WFp p) : WFp (handle_layers p l j) := by
  unfold handle_layers
  rcases hl : lookupS (p.map (handle_layer l j)) l with _ | s
  · intro e he
    simp only at he
    rcases List.mem_append.mp he with he | he
    · exact WFp_map_handle_layer hp e he
    · rcases List.mem_singleton.mp he with rfl
      exact WFs_toIvlSet
  · intro e he
    simp only at he
    rcases mem_setEntry he with he | rfl
    · exact WFp_map_handle_layer hp e he
    · exact WFs_unionS (WFp_map_handle_layer hp (l, s) (lookupS_mem hl))

theorem keys_map_handle_layer {p : Partition} {l : String} {j : Ivl} :
    (p.map (handle_layer l j)).map Prod.fst = p.map Prod.fst := by
  rw [List.map_map]
  exact List.map_congr_left (fun e _ => handle_layer_fst)

theorem keys_handle_layers {p : Partition} {l : String} {j : Ivl} :
    (handle_layers p l j).map Prod.fst =
      if l ∈ p.map Prod.fst then p.map Prod.fst
      else p.map Prod.fst ++ [l] := by
  unfold handle_layers
  rcases hl : lookupS (p.map (handle_layer l j)) l with _ | s
  · have h : l ∉ p.map Prod.fst := by
      rw [← keys_map_handle_layer (l := l) (j := j)]
      exact lookupS_none_iff.mp hl
    rw [if_neg h]
    show (p.map (handle_layer l j) ++ [(l, toIvlSet j)]).map Prod.fst = _
    rw [List.map_append, keys_map_handle_layer]
    rfl
  · have h : l ∈ p.map Prod.fst := by
      rw [← keys_map_handle_layer (l := l) (j := j)]
      exact lookupS_some_mem_keys hl
    rw [if_pos h]
    rw [keys_setEntry (by rw [keys_map_handle_layer]; exact h)]
    exact keys_map_handle_layer

theorem nodup_keys_handle_layers {p : Partition} {l : String} {j : Ivl}
    (hn : (p.map Prod.fst).Nodup) :
    ((handle_layers p l j).map Prod.fst).Nodup := by
  rw [keys_handle_layers]
  by_cases h : l ∈ p.map Prod.fst
  · rw [if_pos h]; exact hn
  · rw [if_neg h]
    rw [List.nodup_append]
    exact ⟨hn, List.nodup_singleton l, by simpa [List.disjoint_singleton] using h⟩

/-! ### Exactly-one-label invariant of compiled partitions -/

theorem countP_ext {α : Type} {f g : α → Bool} {l : List α}
    (h : ∀ a ∈ l, f a = g a) : l.countP f = l.countP g := by
  induction l with
  | nil => rfl
  | cons a r ih =>
    rw [List.countP_cons, List.countP_cons, h a (by simp),
      ih (fun b hb => h b (by simp [hb]))]

theorem countP_zero_of {α : Type} {f : α → Bool} {l : List α}
    (h : ∀ a ∈ l, f a = false) : l.countP f = 0 :=
  List.countP_eq_zero.mpr (fun a ha => by rw [h a ha]; exact Bool.false_ne_true)

theorem lookupS_map_handle_layer_self {p : Partition} {l : String} {j : Ivl} :
    lookupS (p.map (handle_layer l j)) l = lookupS p l := by
  rw [lookupS_map_handle_layer]
  rcases lookupS p l with _ | s0
  · rfl
  · show some (handle_layer l j (l, s0)).2 = some s0
    rw [handle_layer_eq (e := (l, s0)) rfl]

theorem countP_setEntry_found {m : Partition} {l : String} {v s : List Ivl}
    {f : String × List Ivl → Bool} (hm : (m.map Prod.fst).Nodup)
    (hl : lookupS m l = some s) (hz : ∀ e ∈ m, e.1 ≠ l → f e = false)
    (hv : f (l, v) = true) : (setEntry m l v).countP f = 1 := by
  induction m with
  | nil => cases hl
  | cons e r ih =>
    obtain ⟨a, b⟩ := e
    unfold setEntry
    unfold lookupS at hl
    by_cases ha : a = l
    · rw [if_pos ha]
      rw [List.countP_cons, hv]
      have hnr : a ∉ r.map Prod.fst := by
        have h2 := hm
        simp only [List.map_cons] at h2
        exact (List.nodup_cons.mp h2).1
      have hz0 : r.countP f = 0 := by
        apply countP_zero_of
        intro e he
        apply hz e (List.mem_cons_of_mem _ he)
        intro hc
        apply hnr
        rw [ha, ← hc]
        exact List.mem_map_of_mem Prod.fst he
      rw [hz0]
      simp
    · rw [if_neg ha]
      rw [if_neg ha] at hl
      rw [List.countP_cons, hz (a, b) (by simp) ha,
        ih (List.nodup_cons.mp (by simpa using hm)).2 hl
          (fun e he hne => hz e (List.mem_cons_of_mem _ he) hne)]
      simp

theorem countP_setEntry_same {m : Partition} {l : String} {v s : List Ivl}
    {f : String × List Ivl → Bool} (hl : lookupS m l = some s)
    (hfv : f (l, v) = f (l, s)) :
    (setEntry m l v).countP f = m.countP f := by
  induction m with
  | nil => cases hl
  | cons e r ih =>
    obtain ⟨a, b⟩ := e
    unfold setEntry
    unfold lookupS at hl
    by_cases ha : a = l
    · rw [if_pos ha]
      subst ha
      rw [if_pos rfl] at hl
      injection hl with hl
      subst hl
      rw [List.countP_cons, List.countP_cons, hfv]
    · rw [if_neg ha]
      rw [if_neg ha] at hl
      rw [List.countP_cons, List.countP_cons, ih hl]

theorem countP_map_handle_of_memI_false {p : Partition} {l : String} {j : Ivl}
    {t : Nat} (hj : memI t j = false) :
    (p.map (handle_layer l j)).countP (fun e => memS t e.2) =
      p.countP (fun e => memS t e.2) := by
  rw [List.countP_map]
  apply countP_ext
  intro e _
  by_cases hel : e.1 = l
  · show memS t (handle_layer l j e).2 = memS t e.2
    rw [handle_layer_eq hel]
  · show memS t (handle_layer l j e).2 = memS t e.2
    rw [memS_handle_layer_ne hel, hj]
    cases memS t e.2 <;> rfl

theorem countP_map_handle_of_memI_true {p : Partition} {l : String} {j : Ivl}
    {t : Nat} (hj : memI t j = true) {e : String × List Ivl}
    (he : e ∈ p.map (handle_layer l j)) (hne : e.1 ≠ l) :
    memS t e.2 = false := by
  rcases List.mem_map.mp he with ⟨e0, he0, rfl⟩
  rw [memS_handle_layer_ne (by rwa [handle_layer_fst] at hne), hj]
  cases memS t e0.2 <;> rfl

/-- The invariant carried through a compilation pass: unique labels,
well-formed interval sets, and each instant of the day claimed by
exactly one label. -/
def InvP (p : Partition) : Prop :=
  ((p.map Prod.fst).Nodup ∧ WFp p) ∧
    ∀ t : Nat, t < END_OF_DAY → p.countP (fun e => memS t e.2) = 1

theorem InvP_handle_layers {p : Partition} {l : String} {j : Ivl}
    (hp : InvP p) : InvP (handle_layers p l j) := by
  obtain ⟨⟨hn, hw⟩, hcount⟩ := hp
  refine ⟨⟨nodup_keys_handle_layers hn, WFp_handle_layers hw⟩, ?_⟩
  intro t ht
  unfold handle_layers
  rcases hl : lookupS (p.map (handle_layer l j)) l with _ | s
  · -- the new label is absent: carve the others, then append the entry
    have hkeys : l ∉ (p.map (handle_layer l j)).map Prod.fst :=
      lookupS_none_iff.mp hl
    rw [List.countP_append]
    cases hj : memI t j
    · rw [countP_map_handle_of_memI_false hj, hcount t ht]
      have : memS t (toIvlSet j) = false := by rw [memS_toIvlSet, hj]
      simp [List.countP_cons, this]
    · have h0 : (p.map (handle_layer l j)).countP (fun e => memS t e.2) = 0 := by
        apply countP_zero_of
        intro e he
        apply countP_map_handle_of_memI_true hj he
        intro hc
        have hmem : e.1 ∈ (p.map (handle_layer l j)).map Prod.fst :=
          List.mem_map_of_mem Prod.fst he
        rw [hc] at hmem
        exact hkeys hmem
      have h1 : memS t (toIvlSet j) = true := by rw [memS_toIvlSet, hj]
      simp [h0, List.countP_cons, h1]
  · -- the new label exists: carve the others, then union into its set
    have hps : lookupS p l = some s := by
      rw [← lookupS_map_handle_layer_self (j := j)]
      exact hl
    have hwfs : WFs s := hw (l, s) (lookupS_mem hps)
    have hnm : ((p.map (handle_layer l j)).map Prod.fst).Nodup := by
      rw [keys_map_handle_layer]
      exact hn
    cases hj : memI t j
    · rw [countP_setEntry_same hl (by rw [memS_unionS hwfs, hj, Bool.or_false])]
      rw [countP_map_handle_of_memI_false hj, hcount t ht]
    · apply countP_setEntry_found hnm hl
      · intro e he hne
        exact countP_map_handle_of_memI_true hj he hne
      · rw [memS_unionS hwfs, hj, Bool.or_true]

theorem InvP_seed {default_state : String} :
    InvP (handle_layers [] default_state ⟨START_OF_DAY, END_OF_DAY⟩) := by
  have hseed : handle_layers [] default_state ⟨START_OF_DAY, END_OF_DAY⟩ =
      [(default_state, [⟨START_OF_DAY, END_OF_DAY⟩])] := rfl
  rw [hseed]
  refine ⟨⟨List.nodup_singleton _, ?_⟩, ?_⟩
  · intro e he
    rcases List.mem_singleton.mp he with rfl
    intro i hi
    rcases List.mem_singleton.mp hi with rfl
    show START_OF_DAY ≤ END_OF_DAY
    exact Nat.le_of_lt (by decide)
  · intro t ht
    have h1 : memI t ⟨START_OF_DAY, END_OF_DAY⟩ = true := by
      rw [memI_true_iff]
      exact ⟨Nat.zero_le t, ht⟩
    simp [List.countP_cons, memS_cons, h1, memS_nil]

theorem InvP_foldl {p : Partition} {layers : List (String × Ivl)}
    (hp : InvP p) :
    InvP (layers.foldl (fun st lj => handle_layers st lj.1 lj.2) p) := by
  induction layers generalizing p with
  | nil => exact hp
  | cons lj r ih => exact ih (InvP_handle_layers hp)

theorem InvP_compileLayers {default_state : String}
    {layers : List (String × Ivl)} :
    InvP (compileLayers default_state layers) :=
  InvP_foldl InvP_seed

theorem find_interval_isSome_of {p : Partition} {t : Nat}
    (h : ∃ e ∈ p, memS t e.2 = true) : (find_interval p t).isSome = true := by
  induction p with
  | nil =>
    rcases h with ⟨e, he, _⟩
    exact absurd he (List.not_mem_nil e)
  | cons e r ih =>
    unfold find_interval
    by_cases hm : memS t e.2
    · rw [if_pos hm]
      rcases hfind : e.2.find? (fun i => memI t i) with _ | i
      · exfalso
        rcases memS_true_iff.mp hm with ⟨i, hi, hmi⟩
        have := List.find?_eq_none.mp hfind i hi
        exact absurd hmi (by simpa using this)
      · rfl
    · rw [if_neg hm]
      apply ih
      rcases h with ⟨e0, he0, hm0⟩
      rcases List.mem_cons.mp he0 with rfl | he0
      · exact absurd hm0 (by simpa using hm)
      · exact ⟨e0, he0, hm0⟩

theorem exists_mem_of_countP_one {p : Partition} {t : Nat}
    (h : p.countP (fun e => memS t e.2) = 1) :
    ∃ e ∈ p, memS t e.2 = true := by
  by_contra hc
  push_neg at hc
  have : p.countP (fun e => memS t e.2) = 0 :=
    countP_zero_of (fun e he => by
      cases hm : memS t e.2
      · rfl
      · exact absurd hm (hc e he))
  omega

/-- C1: every schedule produced by a completed `process_events`
compilation — which always seeds a full-day default-state layer before
applying any event or override layer — partitions the day: its labels
are pairwise distinct, for every query instant `t` with
`START_OF_DAY ≤ t < END_OF_DAY` exactly one label's interval set
contains `t` (disjointness of distinct labels plus full-day coverage),
and a query at `t` finds a (label, interval) pair. -/
theorem C1_exactly_one_state (default_state : String)
    (layers : List (String × Ivl)) (t : Nat) (ht : t < END_OF_DAY) :
    ((compileLayers default_state layers).map Prod.fst).Nodup ∧
      (compileLayers default_state layers).countP (fun e => memS t e.2) = 1 ∧
      (find_interval (compileLayers default_state layers) t).isSome = true := by
  obtain ⟨⟨hn, _⟩, hc⟩ := @InvP_compileLayers default_state layers
  exact ⟨hn, hc t ht,
    find_interval_isSome_of (exists_mem_of_countP_one (hc t ht))⟩

/-- Witness for C1 at a concrete schedule and instant. -/
theorem C1_exactly_one_state_witness :
    ((compileLayers "off" [("on", ⟨21600, 82800⟩)]).map Prod.fst).Nodup ∧
      (compileLayers "off" [("on", ⟨21600, 82800⟩)]).countP
        (fun e => memS 30000 e.2) = 1 ∧
      (find_interval (compileLayers "off" [("on", ⟨21600, 82800⟩)])
        30000).isSome = true :=
  C1_exactly_one_state "off" [("on", ⟨21600, 82800⟩)] 30000 (by decide)

/-- C2: applying a layer follows the two-step algorithm — for every
label `k` different from the layer's label the overlap with the new
interval is subtracted from `k`'s set, and the new interval is unioned
into the layer's own set (created when absent); consequently, for two
overlapping layers with distinct labels, whichever is applied last owns
the overlapped sub-range, and swapping the application order swaps the
owner. -/
theorem C2_apply_layer_last_wins (p : Partition) (t : Nat)
    (l1 l2 : String) (j1 j2 : Ivl) (hw : WFp p) :
    (∀ k, memS t (getD (handle_layers p l1 j1) k) =
        if k = l1 then (memS t (getD p k) || memI t j1)
        else (memS t (getD p k) && !memI t j1)) ∧
    (l1 ≠ l2 → memI t j1 = true → memI t j2 = true →
      memS t (getD (handle_layers (handle_layers p l1 j1) l2 j2) l2) = true ∧
      memS t (getD (handle_layers (handle_layers p l1 j1) l2 j2) l1) = false ∧
      memS t (getD (handle_layers (handle_layers p l2 j2) l1 j1) l1) = true ∧
      memS t (getD (handle_layers (handle_layers p l2 j2) l1 j1) l2) = false) := by
  constructor
  · exact memS_getD_handle_layers hw t
  · intro hne h1 h2
    have hw1 : WFp (handle_layers p l1 j1) := WFp_handle_layers hw
    have hw2 : WFp (handle_layers p l2 j2) := WFp_handle_layers hw
    refine ⟨?_, ?_, ?_, ?_⟩
    · rw [memS_getD_handle_layers hw1 t l2, if_pos rfl, h2, Bool.or_true]
    · rw [memS_getD_handle_layers hw1 t l1, if_neg hne, h2]
      simp
    · rw [memS_getD_handle_layers hw2 t l1, if_pos rfl, h1, Bool.or_true]
    · rw [memS_getD_handle_layers hw2 t l2,
        if_neg (fun hc : l2 = l1 => hne hc.symm), h1]
      simp

/-- Witness for C2: two overlapping layers at a concrete instant of
their overlap; applied in either order, the later layer owns it. -/
theorem C2_apply_layer_last_wins_witness :
    memS 5 (getD (handle_layers (handle_layers [] "a" ⟨0, 10⟩) "b" ⟨3, 8⟩)
      "b") = true ∧
    memS 5 (getD (handle_layers (handle_layers [] "a" ⟨0, 10⟩) "b" ⟨3, 8⟩)
      "a") = false ∧
    memS 5 (getD (handle_layers (handle_layers [] "b" ⟨3, 8⟩) "a" ⟨0, 10⟩)
      "a") = true ∧
    memS 5 (getD (handle_layers (handle_layers [] "b" ⟨3, 8⟩) "a" ⟨0, 10⟩)
      "b") = false :=
  (C2_apply_layer_last_wins [] 5 "a" "b" ⟨0, 10⟩ ⟨3, 8⟩
    (fun e he => absurd he (List.not_mem_nil e))).2
    (by decide) (by decide) (by decide)

/-! ### Datetimes, overrides and the resolver

Absolute timestamps are seconds from an epoch (`Int`); `tod` is
`datetime.time()` projection, `hourOf` is `.hour`. -/

/-- Time-of-day of an absolute timestamp (`now.time()`), in seconds. -/
def tod (n : Int) : Nat := (n % 86400).toNat

/-- Hour component of an absolute timestamp (`now.hour`). -/
def hourOf (n : Int) : Int := n % 86400 / 3600

/-- Truncate a time of day to its whole minute, as
`datetime(y, m, d, t.hour, t.minute)` does to `t`. -/
def toMin (t : Nat) : Nat := t / 60 * 60

/-- Midnight of the day of `n` (`datetime(n.year, n.month, n.day)`). -/
def start_of_today (n : Int) : Int := n - n % 86400

/-- `start_of_next_day(d)`: add one day, then drop the time part. -/
def start_of_next_day (d : Int) : Int := (d + 86400) - (d + 86400) % 86400

/-- `simple_time(n)`: `n` with seconds/microseconds removed. -/
def simple_time (n : Int) : Int := n - n % 60

/-- `next_time(now, t)`: the next datetime at which time-of-day `t`
occurs relative to `now` — tomorrow at `t` when `now.hour > t.hour`,
else today at `t`; the construction `datetime(v.y, v.m, v.d, t.hour,
t.minute)` keeps only `t`'s hour and minute. -/
def next_time (now : Int) (t : Nat) : Int :=
  if hourOf now > (t / 3600 : Nat) then start_of_next_day now + (toMin t : Int)
  else start_of_today now + (toMin t : Int)

/-- An `Override` record as stored in `self.overrides`: the dict keys
`id`, `state`, `start`, `end`, `expires`, `icon`, the filtered extra
attributes (values modelled as strings), and whether the
`allow_wrap` key was set on it after insertion. -/
structure Override where
  id : Option String
  state : String
  startT : Nat
  endT : Nat
  expires : Int
  icon : Option String
  extra : List (String × String)
  allowWrap : Bool
deriving DecidableEq, Repr

/-- First value stored under a key in a string association list. -/
def lookupStr : List (String × String) → String → Option String
  | [], _ => none
  | e :: r, k => if e.1 = k then some e.2 else lookupStr r k

/-- The extra-attribute filtering of `set_override`: keep only the
configured attribute keys that the caller supplied. -/
def filterExtra (attrKeys : List String) :
    Option (List (String × String)) → List (String × String)
  | none => []
  | some l => attrKeys.filterMap (fun k => (lookupStr l k).map (fun v => (k, v)))

/-- The start/end/wrap resolution chain of `set_override` (lines
1039-1072): from the optional `start`, `end` and `duration` (minutes)
plus `now`, produce the absolute start and end datetimes and the
effective allow-wrap flag, or fail on the three invalid shapes. -/
def resolve_times (now : Int) (startO endO : Option Nat) (dur : Option Nat)
    (allow_wrap_global : Bool) : Option (Int × Int × Bool) :=
  match startO, endO, dur with
  | none, none, none => none
  | some _, some _, some _ => none
  | none, none, some d => some (simple_time now, simple_time now + 60 * d, true)
  | some s, none, some d => some (next_time now s, next_time now s + 60 * d, true)
  | none, some e, some d => some (next_time now e - 60 * d, next_time now e, true)
  | none, some e, none => some (next_time now (tod now), next_time now e, true)
  | some s, some e, none =>
    some (next_time now s, next_time now e, allow_wrap_global)
  | some _, none, none => none

/-- The index search of `_find_override_by_id`: indices of the
overrides whose `id` equals the given one (the accumulator threads the
`enumerate` counter). -/
def find_idxs : List Override → String → Nat → List Nat
  | [], _, _ => []
  | o :: r, i, n =>
    if o.id = some i then n :: find_idxs r i (n + 1) else find_idxs r i (n + 1)

/-- `_find_override_by_id(id)`: `none` for `id=None` or when no
override matches, else the (ascending) list of matching indices. -/
def find_override_by_id (ovs : List Override) (id : Option String) :
    Option (List Nat) :=
  match id with
  | none => none
  | some i =>
    match find_idxs ovs i 0 with
    | [] => none
    | n :: r => some (n :: r)

/-- `_add_or_edit_override(id, ev)`: replace the first matching
override in place and drop any further matches (`find_idxs` is
ascending, so `reversed(sorted(idxs))` is its reverse); append when
nothing matches. -/
def add_or_edit_override (ovs : List Override) (id : Option String)
    (ev : Override) : List Override :=
  match find_override_by_id ovs id with
  | none => ovs ++ [ev]
  | some [] => ovs ++ [ev]
  | some (n :: rest) => rest.reverse.foldl (fun l k => l.eraseIdx k) (ovs.set n ev)

/-- `remove_override(id)`: pop every matching index (highest first),
reporting whether anything matched. -/
def remove_override (ovs : List Override) (id : String) :
    Bool × List Override :=
  match find_override_by_id ovs (some id) with
  | none => (false, ovs)
  | some idxs => (true, idxs.reverse.foldl (fun l k => l.eraseIdx k) ovs)

/-- `clear_overrides()`: report whether any override was stored; the
list is empty afterwards either way. -/
def clear_overrides (ovs : List Override) : Bool × List Override :=
  if ovs.length ≠ 0 then (true, []) else (false, ovs)

/-- `set_override(id, state, start, end, duration, icon, extra)`:
resolve the times, reject `end ≤ start` unless wrapping is permitted
and `start > end`, and store the new override record (which carries the
`allow_wrap` marker exactly when wrapping was permitted for the call). -/
def set_override (allow_wrap_global : Bool) (attrKeys : List String)
    (ovs : List Override) (id : Option String) (state : String)
    (startO endO : Option Nat) (dur : Option Nat) (icon : Option String)
    (extra : Option (List (String × String))) (now : Int) :
    Bool × List Override :=
  match resolve_times now startO endO dur allow_wrap_global with
  | none => (false, ovs)
  | some (sDT, eDT, aw) =>
    if tod eDT > tod sDT ∨ (aw = true ∧ tod sDT > tod eDT) then
      (true, add_or_edit_override ovs id
        ⟨id, state, tod sDT, tod eDT, eDT + 30, icon,
          filterExtra attrKeys extra, aw⟩)
    else (false, ovs)

/-- `_get_intervals(start, end, allow_wrap)`: one interval when
`start < end`, nothing when they are equal, the two wraparound halves
when permitted, else an error (`true` in the second component; the
logged message is elided). -/
def get_intervals (start endT : Nat) (allow_wrap : Bool) :
    List Ivl × Bool :=
  if start < endT then ([⟨start, endT⟩], false)
  else if start = endT then ([], false)
  else if allow_wrap then ([⟨start, END_OF_DAY⟩, ⟨START_OF_DAY, endT⟩], false)
  else ([], true)

/-- The layer rows that `process_events` derives from the stored
overrides: each override contributes its intervals (split on wraparound
via `_get_intervals`) under its state, with the per-event wrap flag
defaulting to the global one. -/
def overridesToLayers (ovs : List Override) (allow_wrap_global : Bool) :
    List (String × Ivl) :=
  ovs.flatMap (fun o =>
    ((get_intervals o.startT o.endT (o.allowWrap || allow_wrap_global)).1).map
      (fun j => (o.state, j)))

/-- `process_events`, at the layering level: the seeded default layer,
then the (already resolved) event layers in order, then the override
layers in store order.  No expiry filtering happens here. -/
def process_events (default_state : String)
    (eventLayers : List (String × Ivl)) (ovs : List Override)
    (allow_wrap_global : Bool) : Partition :=
  compileLayers default_state
    (eventLayers ++ overridesToLayers ovs allow_wrap_global)

/-- The result row of one `update()` query: the current state, the
bounds reported in the attributes, and the computed next state. -/
structure QueryOut where
  value : String
  startA : Nat
  endA : Nat
  next_state : String
deriving DecidableEq, Repr

/-- The probe instant `(datetime.combine(now, u) + timedelta(seconds=1))
.time()`: one second later, wrapping at midnight (`u = END_OF_DAY`
stands for `time.max`, whose successor falls just after midnight). -/
def nextProbe (u : Nat) : Nat :=
  if END_OF_DAY ≤ u + 1 then 0 else u + 1

/-- The query slice of `update()` (lines 977-1005): locate the current
(state, interval); when the interval runs to `END_OF_DAY`, probe the
label at `START_OF_DAY` — a different label is reported as next
directly, the same label joins the two intervals (the reported end
becomes the next-day interval's upper bound) and the next state is
found just past that joined end; otherwise the next state is found one
second past the interval's end.  A failed lookup (`assert False`) is
`none`. -/
def updateQuery (states : Partition) (nu : Nat) : Option QueryOut :=
  match find_interval states nu with
  | none => none
  | some (state, interval) =>
    if interval.upper = END_OF_DAY then
      match find_interval states START_OF_DAY with
      | none => none
      | some (next_state, next_i) =>
        if next_state = state then
          match find_interval states (nextProbe next_i.upper) with
          | none => none
          | some (ns2, _) => some ⟨state, interval.lower, next_i.upper, ns2⟩
        else some ⟨state, interval.lower, interval.upper, next_state⟩
    else
      match find_interval states (nextProbe interval.upper) with
      | none => none
      | some (ns, _) => some ⟨state, interval.lower, interval.upper, ns⟩

/-- The sweep of expired overrides performed at the start of every
`update()` call (line 962): keep an override only while
`expires > now`. -/
def sweepOverrides (ovs : List Override) (now : Int) : List Override :=
  ovs.filter (fun o => decide (now < o.expires))

/-- `update()`: sweep the expired overrides, recompile the schedule
when a refresh is due (the periodic/forced refresh policy is the
caller's; it is abstracted as `refreshDue`), then query at
`time(now.hour, now.minute)`. -/
def update (eventLayers : List (String × Ivl)) (default_state : String)
    (allow_wrap_global : Bool) (ovs : List Override) (states : Partition)
    (now : Int) (refreshDue : Bool) :
    List Override × Partition × Option QueryOut :=
  (sweepOverrides ovs now,
   if refreshDue then
     process_events default_state eventLayers (sweepOverrides ovs now)
       allow_wrap_global
   else states,
   updateQuery
     (if refreshDue then
       process_events default_state eventLayers (sweepOverrides ovs now)
         allow_wrap_global
     else states)
     (toMin (tod now)))

/-- `async_clear_overrides`: clear the store and recompile the schedule
only when the clear reported success. -/
def async_clear_overrides (eventLayers : List (String × Ivl))
    (default_state : String) (allow_wrap_global : Bool)
    (ovs : List Override) (states : Partition) :
    Bool × List Override × Partition :=
  if (clear_overrides ovs).1 then
    (true, (clear_overrides ovs).2,
      process_events default_state eventLayers (clear_overrides ovs).2
        allow_wrap_global)
  else (false, (clear_overrides ovs).2, states)

/-! ### Lemmas about the override store -/

theorem find_idxs_ge {ovs : List Override} {i : String} {n : Nat} :
    ∀ m ∈ find_idxs ovs i n, n ≤ m := by
  induction ovs generalizing n with
  | nil => intro m hm; cases hm
  | cons o r ih =>
    intro m hm
    unfold find_idxs at hm
    by_cases h : o.id = some i
    · rw [if_pos h] at hm
      rcases List.mem_cons.mp hm with rfl | hm
      · exact Nat.le_refl m
      · exact Nat.le_of_succ_le (ih m hm)
    · rw [if_neg h] at hm
      exact Nat.le_of_succ_le (ih m hm)

theorem find_idxs_lt {ovs : List Override} {i : String} {n : Nat} :
    ∀ m ∈ find_idxs ovs i n, m < n + ovs.length := by
  induction ovs generalizing n with
  | nil => intro m hm; cases hm
  | cons o r ih =>
    intro m hm
    unfold find_idxs at hm
    by_cases h : o.id = some i
    · rw [if_pos h] at hm
      rcases List.mem_cons.mp hm with rfl | hm
      · simp
    -- the index of the head is in range
      · have := ih m hm
        simp only [List.length_cons]
        omega
    · rw [if_neg h] at hm
      have := ih m hm
      simp only [List.length_cons]
      omega

theorem find_idxs_head_lt_rest {ovs : List Override} {i : String} {n m : Nat}
    {rest : List Nat} (h : find_idxs ovs i n = m :: rest) :
    ∀ k ∈ rest, m < k := by
  induction ovs generalizing n with
  | nil => cases h
  | cons o r ih =>
    unfold find_idxs at h
    by_cases ho : o.id = some i
    · rw [if_pos ho] at h
      injection h with h1 h2
      subst h1
      subst h2
      intro k hk
      exact Nat.lt_of_succ_le (find_idxs_ge k hk)
    · rw [if_neg ho] at h
      exact ih h

theorem find_idxs_nomatch {ovs : List Override} {i : String} {n : Nat}
    (h : ∀ p ∈ ovs, p.id ≠ some i) : find_idxs ovs i n = [] := by
  induction ovs generalizing n with
  | nil => rfl
  | cons o r ih =>
    unfold find_idxs
    rw [if_neg (h o (by simp))]
    exact ih (fun p hp => h p (List.mem_cons_of_mem _ hp))

theorem find_idxs_single {pre post : List Override} {old : Override}
    {i : String} {n : Nat} (h1 : ∀ p ∈ pre, p.id ≠ some i)
    (h2 : old.id = some i) (h3 : ∀ p ∈ post, p.id ≠ some i) :
    find_idxs (pre ++ old :: post) i n = [n + pre.length] := by
  induction pre generalizing n with
  | nil =>
    show find_idxs (old :: post) i n = _
    unfold find_idxs
    rw [if_pos h2, find_idxs_nomatch h3]
    simp
  | cons o r ih =>
    show find_idxs (o :: (r ++ old :: post)) i n = _
    unfold find_idxs
    rw [if_neg (h1 o (by simp)),
      ih (fun p hp => h1 p (List.mem_cons_of_mem _ hp))]
    simp only [List.length_cons]
    congr 1
    omega

theorem getElem?_eraseIdx_of_lt {α : Type} {l : List α} {k n : Nat}
    (h : n < k) : (l.eraseIdx k)[n]? = l[n]? := by
  induction l generalizing k n with
  | nil => simp [List.eraseIdx]
  | cons a r ih =>
    cases k with
    | zero => omega
    | succ k =>
      cases n with
      | zero => simp [List.eraseIdx]
      | succ n =>
        show ((a :: r.eraseIdx k))[n + 1]? = (a :: r)[n + 1]?
        simp only [List.getElem?_cons_succ]
        exact ih (by omega)

theorem getElem?_foldl_eraseIdx {α : Type} {ks : List Nat} {l : List α}
    {n : Nat} (h : ∀ k ∈ ks, n < k) :
    (ks.foldl (fun l2 k => l2.eraseIdx k) l)[n]? = l[n]? := by
  induction ks generalizing l with
  | nil => rfl
  | cons k ks ih =>
    show (ks.foldl _ (l.eraseIdx k))[n]? = _
    rw [ih (fun k2 hk2 => h k2 (by simp [hk2]))]
    exact getElem?_eraseIdx_of_lt (h k (by simp))

theorem mem_of_getElem?_eq_some {α : Type} {l : List α} {n : Nat} {a : α}
    (h : l[n]? = some a) : a ∈ l := by
  induction l generalizing n with
  | nil => cases h
  | cons x r ih =>
    cases n with
    | zero =>
      rw [List.getElem?_cons_zero] at h
      injection h with h
      subst h
      exact List.mem_cons_self _ _
    | succ n =>
      rw [List.getElem?_cons_succ] at h
      exact List.mem_cons_of_mem _ (ih h)

theorem find_override_by_id_nil {ovs : List Override} {i : String}
    (h : find_idxs ovs i 0 = []) : find_override_by_id ovs (some i) = none := by
  show (match find_idxs ovs i 0 with
    | [] => none
    | n :: r => some (n :: r) : Option (List Nat)) = none
  rw [h]

theorem find_override_by_id_cons {ovs : List Override} {i : String} {n : Nat}
    {rest : List Nat} (h : find_idxs ovs i 0 = n :: rest) :
    find_override_by_id ovs (some i) = some (n :: rest) := by
  show (match find_idxs ovs i 0 with
    | [] => none
    | n :: r => some (n :: r) : Option (List Nat)) = some (n :: rest)
  rw [h]

theorem mem_add_or_edit {ovs : List Override} {id : Option String}
    {ev : Override} : ev ∈ add_or_edit_override ovs id ev := by
  rcases id with _ | i
  · show ev ∈ ovs ++ [ev]
    simp
  · rcases hidx : find_idxs ovs i 0 with _ | ⟨n, rest⟩
    · unfold add_or_edit_override
      rw [find_override_by_id_nil hidx]
      simp
    · unfold add_or_edit_override
      rw [find_override_by_id_cons hidx]
      show ev ∈ rest.reverse.foldl (fun l k => l.eraseIdx k) (ovs.set n ev)
      have hlt : n < ovs.length := by
        have := find_idxs_lt (i := i) n
          (by rw [hidx]; exact List.mem_cons_self _ _)
        omega
      apply mem_of_getElem?_eq_some (n := n)
      rw [getElem?_foldl_eraseIdx
        (fun k hk => find_idxs_head_lt_rest hidx k (by simpa using hk))]
      exact List.getElem?_set_eq_of_lt ev hlt

theorem set_append_length {pre post : List Override} {old ev : Override} :
    (pre ++ old :: post).set pre.length ev = pre ++ ev :: post := by
  induction pre with
  | nil => rfl
  | cons x r ih =>
    show x :: (r ++ old :: post).set r.length ev = _
    rw [ih]
    rfl

theorem eraseIdx_append_mid {pre post : List Override} {old : Override} :
    (pre ++ old :: post).eraseIdx pre.length = pre ++ post := by
  induction pre with
  | nil => rfl
  | cons x r ih =>
    show x :: (r ++ old :: post).eraseIdx r.length = _
    rw [ih]
    rfl

/-- C7: `set_override` with an id matching a stored override replaces
it at its existing list position; with no matching id, or with
`id=None`, the new override is appended (so multiple anonymous
overrides may coexist); and removing an override by an unknown id
returns `False` and leaves the override list unchanged. -/
theorem C7_override_store_edit (ovs pre post : List Override)
    (old ev : Override) (i : String) :
    (old.id = some i → (∀ p ∈ pre, p.id ≠ some i) →
      (∀ p ∈ post, p.id ≠ some i) →
      add_or_edit_override (pre ++ old :: post) (some i) ev =
        pre ++ ev :: post) ∧
    ((∀ p ∈ ovs, p.id ≠ some i) →
      add_or_edit_override ovs (some i) ev = ovs ++ [ev]) ∧
    (add_or_edit_override ovs none ev = ovs ++ [ev]) ∧
    ((∀ p ∈ ovs, p.id ≠ some i) → remove_override ovs i = (false, ovs)) := by
  refine ⟨?_, ?_, rfl, ?_⟩
  · intro h2 h1 h3
    have hidx := find_idxs_single (n := 0) h1 h2 h3
    unfold add_or_edit_override
    rw [find_override_by_id_cons hidx]
    show ([] : List Nat).reverse.foldl (fun l k => l.eraseIdx k)
      ((pre ++ old :: post).set (0 + pre.length) ev) = pre ++ ev :: post
    simp only [List.reverse_nil, List.foldl_nil, Nat.zero_add]
    exact set_append_length
  · intro h
    unfold add_or_edit_override
    rw [find_override_by_id_nil (find_idxs_nomatch h)]
  · intro h
    unfold remove_override
    rw [find_override_by_id_nil (find_idxs_nomatch h)]

/-- Witness for C7 on a concrete three-override store. -/
theorem C7_override_store_edit_witness :
    add_or_edit_override
      [⟨none, "a", 0, 10, 5, none, [], false⟩,
       ⟨some "x", "b", 1, 2, 3, none, [], false⟩,
       ⟨some "y", "c", 3, 4, 5, none, [], false⟩] (some "x")
      ⟨some "x", "d", 7, 8, 9, none, [], true⟩ =
      [⟨none, "a", 0, 10, 5, none, [], false⟩,
       ⟨some "x", "d", 7, 8, 9, none, [], true⟩,
       ⟨some "y", "c", 3, 4, 5, none, [], false⟩] ∧
    add_or_edit_override [⟨none, "a", 0, 10, 5, none, [], false⟩] (some "x")
      ⟨some "x", "d", 7, 8, 9, none, [], true⟩ =
      [⟨none, "a", 0, 10, 5, none, [], false⟩] ++
        [⟨some "x", "d", 7, 8, 9, none, [], true⟩] ∧
    add_or_edit_override [⟨none, "a", 0, 10, 5, none, [], false⟩] none
      ⟨some "x", "d", 7, 8, 9, none, [], true⟩ =
      [⟨none, "a", 0, 10, 5, none, [], false⟩] ++
        [⟨some "x", "d", 7, 8, 9, none, [], true⟩] ∧
    remove_override [⟨none, "a", 0, 10, 5, none, [], false⟩] "x" =
      (false, [⟨none, "a", 0, 10, 5, none, [], false⟩]) := by
  obtain ⟨h1, h2, h3, h4⟩ := C7_override_store_edit
    [⟨none, "a", 0, 10, 5, none, [], false⟩]
    [⟨none, "a", 0, 10, 5, none, [], false⟩]
    [⟨some "y", "c", 3, 4, 5, none, [], false⟩]
    ⟨some "x", "b", 1, 2, 3, none, [], false⟩
    ⟨some "x", "d", 7, 8, 9, none, [], true⟩ "x"
  exact ⟨h1 rfl (by decide) (by decide), h2 (by decide), h3, h4 (by decide)⟩

/-- Counterexample for C6: an accepted wraparound override (start
23:00, end 01:00, resolved at 10:00 of day 5 with wrapping allowed
globally) is stored as a *single* record whose `start > end`; the
store does hold a single wrapping record. -/
theorem C6_single_record_cex :
    (set_override true [] [] (some "n1") "on" (some 82800) (some 3600)
      none none none 468000).2 =
      [⟨some "n1", "on", 82800, 3600, 522030, none, [], true⟩] ∧
    (82800 : Nat) > 3600 := by
  constructor
  · decide
  · decide

/-- C6 (amended): a wraparound override is stored as one record with
`start > end` carrying the allow-wrap marker; the split into
`[start, END_OF_DAY)` and `[START_OF_DAY, end)` happens at every
compilation via `_get_intervals`, both halves under the override's
label; and removal by the override's id removes that single record —
hence both halves vanish from subsequent compilations together. -/
theorem C6_wrap_split (s e : Nat) (g : Bool) (o : Override)
    (ovs : List Override) (i : String) (he : e < s) (hs : o.startT = s)
    (hen : o.endT = e) (hw : o.allowWrap = true) (hid : o.id = some i)
    (hfresh : ∀ p ∈ ovs, p.id ≠ some i) :
    get_intervals s e true = ([⟨s, END_OF_DAY⟩, ⟨START_OF_DAY, e⟩], false) ∧
    overridesToLayers [o] g =
      [(o.state, ⟨s, END_OF_DAY⟩), (o.state, ⟨START_OF_DAY, e⟩)] ∧
    remove_override (ovs ++ [o]) i = (true, ovs) := by
  have hget : ∀ b : Bool, get_intervals s e (true || b) =
      ([⟨s, END_OF_DAY⟩, ⟨START_OF_DAY, e⟩], false) := by
    intro b
    rw [Bool.true_or]
    unfold get_intervals
    rw [if_neg (by omega), if_neg (by omega), if_pos rfl]
  refine ⟨by simpa using hget false, ?_, ?_⟩
  · unfold overridesToLayers
    rw [List.flatMap_cons, List.flatMap_nil, List.append_nil, hs, hen, hw,
      hget g]
    rfl
  · unfold remove_override
    have hidx : find_idxs (ovs ++ [o]) i 0 = [0 + ovs.length] :=
      find_idxs_single hfresh hid (fun p hp => absurd hp (List.not_mem_nil p))
    rw [find_override_by_id_cons hidx]
    show (true, [0 + ovs.length].reverse.foldl (fun l k => l.eraseIdx k)
      (ovs ++ [o])) = (true, ovs)
    simp only [List.reverse_cons, List.reverse_nil, List.nil_append,
      List.foldl_cons, List.foldl_nil, Nat.zero_add]
    rw [show ovs ++ [o] = ovs ++ o :: [] from rfl, eraseIdx_append_mid]
    simp

/-- Witness for C6 (amended) at the counterexample's wrap override. -/
theorem C6_wrap_split_witness :
    get_intervals 82800 3600 true =
      ([⟨82800, END_OF_DAY⟩, ⟨START_OF_DAY, 3600⟩], false) ∧
    overridesToLayers [⟨some "n1", "on", 82800, 3600, 522030, none, [], true⟩]
      false =
      [("on", ⟨82800, END_OF_DAY⟩), ("on", ⟨START_OF_DAY, 3600⟩)] ∧
    remove_override
      ([] ++ [⟨some "n1", "on", 82800, 3600, 522030, none, [], true⟩]) "n1" =
      (true, []) :=
  C6_wrap_split 82800 3600 false
    ⟨some "n1", "on", 82800, 3600, 522030, none, [], true⟩ [] "n1"
    (by decide) rfl rfl rfl rfl (by decide)

/-- Counterexample for C4: with `now` = 09:00 and `T` = 10:25:30,
`next_time` returns today at 10:25:00, not today at `T` — the
construction `datetime(v.y, v.m, v.d, t.hour, t.minute)` drops the
seconds of `T`, so "returns today at time T" does not hold exactly. -/
theorem C4_next_time_cex :
    next_time 32400 37530 = 37500 ∧
      next_time 32400 37530 ≠ start_of_today 32400 + 37530 := by
  constructor
  · decide
  · decide

/-- C4 (amended): the next-occurrence computation compares hours only
— it returns today at `T` truncated to the whole minute when
`now.hour ≤ T.hour`, and tomorrow at the truncated `T` when
`now.hour > T.hour` — even when a full time comparison would decide
otherwise. -/
theorem C4_next_time_hour_rule (now : Int) (t : Nat) :
    (hourOf now ≤ (t / 3600 : Nat) →
      next_time now t = start_of_today now + (toMin t : Int)) ∧
    (((t / 3600 : Nat) : Int) < hourOf now →
      next_time now t = start_of_next_day now + (toMin t : Int)) := by
  constructor
  · intro h
    unfold next_time
    rw [if_neg (by omega)]
  · intro h
    unfold next_time
    rw [if_pos (by omega)]

/-- Witness for C4: `now` 10:00 with start 09:00 resolves to tomorrow
09:00; `now` 10:45 with target 10:15 still resolves to today 10:15,
already in the past. -/
theorem C4_next_time_hour_rule_witness :
    next_time 36000 32400 = start_of_next_day 36000 + (toMin 32400 : Int) ∧
    next_time 38700 36900 = start_of_today 38700 + (toMin 36900 : Int) ∧
    start_of_today 38700 + (toMin 36900 : Int) < 38700 :=
  ⟨(C4_next_time_hour_rule 36000 32400).2 (by decide),
   (C4_next_time_hour_rule 38700 36900).1 (by decide),
   by decide⟩

theorem next_time_tod_self (now : Int) :
    next_time now (tod now) = simple_time now := by
  have hc : ¬ hourOf now > ((tod now) / 3600 : Nat) := by
    unfold hourOf tod
    omega
  unfold next_time
  rw [if_neg hc]
  unfold start_of_today tod toMin simple_time
  omega

/-- Counterexample for C3: with `now` = 10:00:45 (day 5) and only a
30-minute duration, the stored start is 10:00:00, not `now` — the
resolution truncates `now` to the whole minute (`simple_time`), so the
table row "duration only yields [now, now+duration)" does not hold
exactly. -/
theorem C3_resolution_cex :
    set_override true [] [] none "on" none none (some 30) none none 468045 =
      (true, [⟨none, "on", 36000, 37800, 469830, none, [], true⟩]) ∧
    tod 468045 = 36045 ∧ (36000 : Nat) ≠ 36045 := by
  refine ⟨by decide, by decide, by decide⟩

/-- C3 (amended): `set_override` resolves the seven input shapes of
the resolution table with `now` truncated to the whole minute and
next-occurrence times keeping only hour and minute: duration only
yields [simple_time now, +duration); start+duration yields
[next_time start, +duration); end+duration yields
[next_time end − duration, next_time end); end only yields
[simple_time now, next_time end); start+end yields
[next_time start, next_time end) with wrap governed by the global
allow-wrap setting; the no-argument, start-only and
start+end+duration shapes fail returning `False` and storing nothing;
and every accepted override stores expiry = resolved end + 30 seconds
of absolute wall time. -/
theorem C3_resolution_table (g : Bool) (keys : List String)
    (ovs : List Override) (id : Option String) (st : String)
    (ic : Option String) (ex : Option (List (String × String)))
    (now : Int) (s e d : Nat) :
    resolve_times now none none none g = none ∧
    resolve_times now (some s) none none g = none ∧
    resolve_times now (some s) (some e) (some d) g = none ∧
    resolve_times now none none (some d) g =
      some (simple_time now, simple_time now + 60 * d, true) ∧
    resolve_times now (some s) none (some d) g =
      some (next_time now s, next_time now s + 60 * d, true) ∧
    resolve_times now none (some e) (some d) g =
      some (next_time now e - 60 * d, next_time now e, true) ∧
    resolve_times now none (some e) none g =
      some (simple_time now, next_time now e, true) ∧
    resolve_times now (some s) (some e) none g =
      some (next_time now s, next_time now e, g) ∧
    set_override g keys ovs id st none none none ic ex now = (false, ovs) ∧
    set_override g keys ovs id st (some s) none none ic ex now =
      (false, ovs) ∧
    set_override g keys ovs id st (some s) (some e) (some d) ic ex now =
      (false, ovs) ∧
    (∀ (a b c : Option Nat) (sDT eDT : Int) (aw : Bool)
        (ovs2 : List Override),
      resolve_times now a b c g = some (sDT, eDT, aw) →
      set_override g keys ovs id st a b c ic ex now = (true, ovs2) →
      ∃ ov ∈ ovs2, ov.startT = tod sDT ∧ ov.endT = tod eDT ∧
        ov.expires = eDT + 30) := by
  refine ⟨rfl, rfl, rfl, rfl, rfl, rfl, ?_, rfl, rfl, rfl, rfl, ?_⟩
  · show some (next_time now (tod now), next_time now e, true) = _
    rw [next_time_tod_self]
  · intro a b c sDT eDT aw ovs2 h1 h2
    unfold set_override at h2
    rw [h1] at h2
    have h2 : (if tod eDT > tod sDT ∨ (aw = true ∧ tod sDT > tod eDT) then
        (true, add_or_edit_override ovs id
          ⟨id, st, tod sDT, tod eDT, eDT + 30, ic, filterExtra keys ex, aw⟩)
      else (false, ovs)) = (true, ovs2) := h2
    by_cases hacc : tod eDT > tod sDT ∨ (aw = true ∧ tod sDT > tod eDT)
    · rw [if_pos hacc] at h2
      injection h2 with _ h2b
      refine ⟨⟨id, st, tod sDT, tod eDT, eDT + 30, ic, filterExtra keys ex, aw⟩,
        ?_, rfl, rfl, rfl⟩
      rw [← h2b]
      exact mem_add_or_edit
    · rw [if_neg hacc] at h2
      injection h2 with h2a _
      cases h2a

/-- Witness for C3 at a concrete `now` (10:00:45 of day 5). -/
theorem C3_resolution_table_witness :
    resolve_times 468045 none none none true = none ∧
    resolve_times 468045 (some 32400) none none true = none ∧
    resolve_times 468045 (some 32400) (some 3600) (some 30) true = none ∧
    resolve_times 468045 none none (some 30) true =
      some (simple_time 468045, simple_time 468045 + 60 * 30, true) ∧
    resolve_times 468045 (some 32400) none (some 30) true =
      some (next_time 468045 32400, next_time 468045 32400 + 60 * 30, true) ∧
    resolve_times 468045 none (some 3600) (some 30) true =
      some (next_time 468045 3600 - 60 * 30, next_time 468045 3600, true) ∧
    resolve_times 468045 none (some 3600) none true =
      some (simple_time 468045, next_time 468045 3600, true) ∧
    resolve_times 468045 (some 32400) (some 3600) none true =
      some (next_time 468045 32400, next_time 468045 3600, true) ∧
    set_override true [] [] none "on" none none none none none 468045 =
      (false, []) ∧
    set_override true [] [] none "on" (some 32400) none none none none
      468045 = (false, []) ∧
    set_override true [] [] none "on" (some 32400) (some 3600) (some 30)
      none none 468045 = (false, []) ∧
    (∃ ov ∈ [(⟨none, "on", 36000, 37800, 469830, none, [], true⟩ : Override)],
      ov.startT = tod 468000 ∧ ov.endT = tod 469800 ∧
        ov.expires = (469800 : Int) + 30) := by
  obtain ⟨h1, h2, h3, h4, h5, h6, h7, h8, h9, h10, h11, h12⟩ :=
    C3_resolution_table true [] [] none "on" none none 468045 32400 3600 30
  exact ⟨h1, h2, h3, h4, h5, h6, h7, h8, h9, h10, h11,
    h12 none none (some 30) 468000 469800 true
      [⟨none, "on", 36000, 37800, 469830, none, [], true⟩]
      (by decide) (by decide)⟩

/-- Counterexample for C9: with start = end = 10:00 and wraparound
permitted for the call (global allow-wrap on), `set_override` still
fails — equal resolved bounds are rejected regardless of the wrap
permission, contradicting "end <= start with wrap permitted is
accepted". -/
theorem C9_equal_bounds_cex :
    resolve_times 0 (some 36000) (some 36000) none true =
      some (36000, 36000, true) ∧
    set_override true [] [] none "x" (some 36000) (some 36000) none none
      none 0 = (false, []) := by
  constructor
  · decide
  · decide

/-- C9 (amended): after resolution, a projected end strictly below the
projected start is accepted exactly when wrapping is permitted for the
call; equal projected bounds are always rejected, wrap permission or
not; and every rejection returns `False` leaving the stored override
list unchanged. -/
theorem C9_wrap_acceptance (g : Bool) (keys : List String)
    (ovs : List Override) (id : Option String) (st : String)
    (ic : Option String) (ex : Option (List (String × String)))
    (now : Int) (a b c : Option Nat) (sDT eDT : Int) (aw : Bool)
    (h : resolve_times now a b c g = some (sDT, eDT, aw)) :
    (tod eDT < tod sDT → aw = true →
      (set_override g keys ovs id st a b c ic ex now).1 = true) ∧
    (tod eDT < tod sDT → aw = false →
      set_override g keys ovs id st a b c ic ex now = (false, ovs)) ∧
    (tod eDT = tod sDT →
      set_override g keys ovs id st a b c ic ex now = (false, ovs)) := by
  have hset : set_override g keys ovs id st a b c ic ex now =
      (if tod eDT > tod sDT ∨ (aw = true ∧ tod sDT > tod eDT) then
        (true, add_or_edit_override ovs id
          ⟨id, st, tod sDT, tod eDT, eDT + 30, ic, filterExtra keys ex, aw⟩)
      else (false, ovs)) := by
    unfold set_override
    rw [h]
  refine ⟨?_, ?_, ?_⟩
  · intro hlt haw
    rw [hset, if_pos (Or.inr ⟨haw, hlt⟩)]
  · intro hlt haw
    have hn : ¬(tod eDT > tod sDT ∨ (aw = true ∧ tod sDT > tod eDT)) := by
      subst haw
      rintro (hc | ⟨hc1, hc2⟩)
      · omega
      · cases hc1
    rw [hset, if_neg hn]
  · intro heq
    have hn : ¬(tod eDT > tod sDT ∨ (aw = true ∧ tod sDT > tod eDT)) := by
      rintro (hc | ⟨hc1, hc2⟩) <;> omega
    rw [hset, if_neg hn]

/-- Witness for C9: a wrap-permitted 23:00→01:00 override is accepted,
the same override is rejected when the global wrap setting is off, and
equal bounds are rejected even with wrapping permitted. -/
theorem C9_wrap_acceptance_witness :
    (set_override true [] [] none "x" (some 82800) (some 3600) none none
      none 468000).1 = true ∧
    set_override false [] [] none "x" (some 82800) (some 3600) none none
      none 468000 = (false, []) ∧
    set_override true [] [] none "x" (some 36000) (some 36000) none none
      none 0 = (false, []) :=
  ⟨(C9_wrap_acceptance true [] [] none "x" none none 468000 (some 82800)
      (some 3600) none 514800 522000 true (by decide)).1 (by decide) rfl,
   (C9_wrap_acceptance false [] [] none "x" none none 468000 (some 82800)
      (some 3600) none 514800 522000 false (by decide)).2.1 (by decide) rfl,
   (C9_wrap_acceptance true [] [] none "x" none none 0 (some 36000)
      (some 36000) none 36000 36000 true (by decide)).2.2 (by decide)⟩

/-- Counterexample for C5: for an interval not ending at `END_OF_DAY`,
the next state is probed one *second* past the interval's end, not one
minute: with intervals A `[0,600)`, B `[600,660)`, C `[660,86400)`,
querying inside A reports next state B (the label at 601), while the
label at `600 + 60` seconds is C. -/
theorem C5_probe_cex :
    (updateQuery (compileLayers "C" [("A", ⟨0, 600⟩), ("B", ⟨600, 660⟩)])
      0).map QueryOut.next_state = some "B" ∧
    (find_interval (compileLayers "C" [("A", ⟨0, 600⟩), ("B", ⟨600, 660⟩)])
      (600 + 60)).map Prod.fst = some "C" ∧
    ("B" : String) ≠ "C" := by
  refine ⟨by decide, by decide, by decide⟩

/-- C5 (amended): when the interval containing the query time ends at
`END_OF_DAY`, the query first probes the label active at
`START_OF_DAY`: a different label is reported directly as the next
state with no further lookahead; the same label joins the two
intervals — the reported end becomes the next-day interval's upper
bound and the next state is the label active just after that joined
end (one second past it); for an interval not ending at `END_OF_DAY`,
the next state is the label active at the probe instant
`interval.upper + 1 second`. -/
theorem C5_next_label (states : Partition) (nu : Nat) (st : String)
    (iv : Ivl) (h : find_interval states nu = some (st, iv)) :
    (iv.upper = END_OF_DAY →
      ∀ ns ni, find_interval states START_OF_DAY = some (ns, ni) →
        (ns ≠ st → updateQuery states nu =
          some ⟨st, iv.lower, iv.upper, ns⟩) ∧
        (ns = st → updateQuery states nu =
          (find_interval states (nextProbe ni.upper)).map
            (fun r => ⟨st, iv.lower, ni.upper, r.1⟩))) ∧
    (iv.upper ≠ END_OF_DAY → updateQuery states nu =
      (find_interval states (nextProbe iv.upper)).map
        (fun r => ⟨st, iv.lower, iv.upper, r.1⟩)) := by
  have hq : updateQuery states nu =
      (if iv.upper = END_OF_DAY then
        match find_interval states START_OF_DAY with
        | none => none
        | some (next_state, next_i) =>
          if next_state = st then
            match find_interval states (nextProbe next_i.upper) with
            | none => none
            | some (ns2, _) =>
              some (⟨st, iv.lower, next_i.upper, ns2⟩ : QueryOut)
          else some (⟨st, iv.lower, iv.upper, next_state⟩ : QueryOut)
      else
        match find_interval states (nextProbe iv.upper) with
        | none => none
        | some (ns, _) => some (⟨st, iv.lower, iv.upper, ns⟩ : QueryOut)) := by
    unfold updateQuery
    rw [h]
  constructor
  · intro hEnd ns ni hf2
    rw [hq, if_pos hEnd, hf2]
    constructor
    · intro hne
      show (if ns = st then _
        else some (⟨st, iv.lower, iv.upper, ns⟩ : QueryOut)) = _
      rw [if_neg hne]
    · intro heq
      show (if ns = st then
          match find_interval states (nextProbe ni.upper) with
          | none => none
          | some (ns2, _) => some (⟨st, iv.lower, ni.upper, ns2⟩ : QueryOut)
        else some (⟨st, iv.lower, iv.upper, ns⟩ : QueryOut)) = _
      rw [if_pos heq]
      rcases hf3 : find_interval states (nextProbe ni.upper) with _ | ⟨ns2, i2⟩
      · rfl
      · rfl
  · intro hne
    rw [hq, if_neg hne]
    rcases hf3 : find_interval states (nextProbe iv.upper) with _ | ⟨ns2, i2⟩
    · rfl
    · rfl

/-- Witness for C5: a schedule whose current interval runs to the end
of day with a different label at the start of day (reported directly),
and a whole-day single-label schedule (joined interval, next state
found past the joined end). -/
theorem C5_next_label_witness :
    updateQuery (compileLayers "C" [("A", ⟨0, 600⟩)]) 700 =
      some ⟨"C", 600, 86400, "A"⟩ ∧
    updateQuery (compileLayers "C" []) 0 = some ⟨"C", 0, 86400, "C"⟩ := by
  constructor
  · exact ((C5_next_label (compileLayers "C" [("A", ⟨0, 600⟩)]) 700 "C"
      ⟨600, 86400⟩ (by decide)).1 rfl "A" ⟨0, 600⟩ (by decide)).1 (by decide)
  · have h := ((C5_next_label (compileLayers "C" []) 0 "C"
      ⟨0, 86400⟩ (by decide)).1 rfl "C" ⟨0, 86400⟩ (by decide)).2 rfl
    rw [h]
    decide

/-- Counterexample for C8: schedule compilation does not sweep expired
overrides — an override whose expiry (100) is already past at query
time 200 is still compiled into the very next partition built by
`process_events`, which never consults the clock. -/
theorem C8_compile_no_sweep_cex :
    (100 : Int) < 200 ∧
    (find_interval (process_events "off" []
      [⟨none, "on", 600, 1200, 100, none, [], false⟩] false) 700).map
      Prod.fst = some "on" := by
  constructor
  · decide
  · decide

/-- C8 (amended): expired overrides (`now ≥ expires`; the code keeps an
override only while `expires > now`) are removed from the store as a
side effect of every *query* (`update`), not of compilation itself nor
by a separate timer; any compilation the query performs uses the swept
store, so a swept override is absent from the partition that query
compiles; without a refresh the previously compiled partition is kept
as is. -/
theorem C8_sweep_on_query (eventLayers : List (String × Ivl))
    (default_state : String) (g : Bool) (ovs : List Override)
    (states : Partition) (now : Int) (refreshDue : Bool) (o : Override) :
    ((o ∈ (update eventLayers default_state g ovs states now
        refreshDue).1) ↔ (o ∈ ovs ∧ now < o.expires)) ∧
    (refreshDue = true →
      (update eventLayers default_state g ovs states now refreshDue).2.1 =
        process_events default_state eventLayers (sweepOverrides ovs now)
          g) ∧
    (refreshDue = false →
      (update eventLayers default_state g ovs states now refreshDue).2.1 =
        states) := by
  refine ⟨?_, ?_, ?_⟩
  · show o ∈ sweepOverrides ovs now ↔ _
    unfold sweepOverrides
    rw [List.mem_filter]
    simp
  · intro h
    subst h
    rfl
  · intro h
    subst h
    rfl

/-- Witness for C8: an override expired at query time 500 is swept and
the query-driven recompilation uses the swept store; with no refresh
due the old partition is kept. -/
theorem C8_sweep_on_query_witness :
    ((⟨none, "on", 600, 1200, 100, none, [], false⟩ : Override) ∈
      (update [] "off" false [⟨none, "on", 600, 1200, 100, none, [], false⟩]
        [] 500 true).1 ↔
      ((⟨none, "on", 600, 1200, 100, none, [], false⟩ : Override) ∈
        [(⟨none, "on", 600, 1200, 100, none, [], false⟩ : Override)] ∧
        (500 : Int) < 100)) ∧
    (update [] "off" false [⟨none, "on", 600, 1200, 100, none, [], false⟩]
      [] 500 true).2.1 =
      process_events "off" []
        (sweepOverrides [⟨none, "on", 600, 1200, 100, none, [], false⟩] 500)
        false ∧
    (update [] "off" false [⟨none, "on", 600, 1200, 100, none, [], false⟩]
      [] 500 false).2.1 = [] := by
  obtain ⟨h1, h2, _⟩ := C8_sweep_on_query [] "off" false
    [⟨none, "on", 600, 1200, 100, none, [], false⟩] [] 500 true
    ⟨none, "on", 600, 1200, 100, none, [], false⟩
  obtain ⟨_, _, h3⟩ := C8_sweep_on_query [] "off" false
    [⟨none, "on", 600, 1200, 100, none, [], false⟩] [] 500 false
    ⟨none, "on", 600, 1200, 100, none, [], false⟩
  exact ⟨h1, h2 rfl, h3 rfl⟩

/-- C10: `clear_overrides` returns `True` and leaves the override list
empty when at least one override was stored, and returns `False`
changing nothing when the list was already empty; the clear operation
recompiles the schedule only in the `True` case. -/
theorem C10_clear_recompile (eventLayers : List (String × Ivl))
    (default_state : String) (g : Bool) (ovs : List Override)
    (states : Partition) :
    (ovs ≠ [] → clear_overrides ovs = (true, []) ∧
      async_clear_overrides eventLayers default_state g ovs states =
        (true, [], process_events default_state eventLayers [] g)) ∧
    (ovs = [] → clear_overrides ovs = (false, ovs) ∧
      async_clear_overrides eventLayers default_state g ovs states =
        (false, ovs, states)) := by
  constructor
  · intro h
    have hlen : ovs.length ≠ 0 := by
      intro hc
      exact h (List.length_eq_zero.mp hc)
    have hc : clear_overrides ovs = (true, []) := by
      unfold clear_overrides
      rw [if_pos hlen]
    refine ⟨hc, ?_⟩
    unfold async_clear_overrides
    rw [hc]
    rfl
  · intro h
    subst h
    exact ⟨rfl, rfl⟩

/-- Witness for C10 on a one-override store and on the empty store. -/
theorem C10_clear_recompile_witness :
    clear_overrides [⟨none, "a", 0, 10, 5, none, [], false⟩] = (true, []) ∧
    async_clear_overrides [] "off" false
      [⟨none, "a", 0, 10, 5, none, [], false⟩] [] =
      (true, [], process_events "off" [] [] false) ∧
    clear_overrides ([] : List Override) = (false, []) ∧
    async_clear_overrides [] "off" false [] [] = (false, [], []) := by
  obtain ⟨h1, _⟩ := C10_clear_recompile [] "off" false
    [⟨none, "a", 0, 10, 5, none, [], false⟩] []
  obtain ⟨_, h2⟩ := C10_clear_recompile [] "off" false [] []
  have ha := h1 (by decide)
  have hb := h2 rfl
  exact ⟨ha.1, ha.2, hb.1, hb.2⟩
